import Mathlib

/-!
# Verification of the pyBloxorz solver

Shallow embedding of `src/solver/solver.py`: the block geometry (`Pos`,
`Block`, the four tilt operations, `neighbors`) and the breadth-first
search engine (`Solver`, `solve`).  The search loop is modelled with an
explicit fuel parameter: `none` means the fuel ran out before the loop
finished, `some h` is the move list the Python function returns.
-/

/-- A cell position, `Pos` in solver.py (dataclass of two ints). -/
structure Pos where
  row : Int
  col : Int
deriving DecidableEq, Repr

/-- `Pos.drow`: shift the row by `d`. -/
def Pos.drow (p : Pos) (d : Int) : Pos := ⟨p.row + d, p.col⟩

/-- `Pos.dcol`: shift the column by `d`. -/
def Pos.dcol (p : Pos) (d : Int) : Pos := ⟨p.row, p.col + d⟩

/-- The `Move` enum of solver.py. -/
inductive Move where
  | UP | RIGHT | DOWN | LEFT
deriving DecidableEq, Repr

/-- A block, represented by the positions of its two cubes. -/
structure Block where
  b1 : Pos
  b2 : Pos
deriving DecidableEq, Repr

/-- The condition asserted by `Block.__post_init__` in solver.py:
`b1.row <= b2.row and b1.col <= b2.col`. -/
def Block.post_init_check (b1 b2 : Pos) : Bool :=
  decide (b1.row ≤ b2.row) && decide (b1.col ≤ b2.col)

/-- `Block.drow`: shift the two cubes' rows by `d1` and `d2`. -/
def Block.drow (b : Block) (d1 d2 : Int) : Block := ⟨b.b1.drow d1, b.b2.drow d2⟩

/-- `Block.dcol`: shift the two cubes' columns by `d1` and `d2`. -/
def Block.dcol (b : Block) (d1 d2 : Int) : Block := ⟨b.b1.dcol d1, b.b2.dcol d2⟩

/-- `Block.is_standing`: the two cubes coincide. -/
def Block.is_standing (b : Block) : Bool := decide (b.b1 = b.b2)

/-- `Block.left` from solver.py. -/
def Block.left (b : Block) : Block :=
  if b.is_standing then b.dcol (-2) (-1)
  else if b.b1.row = b.b2.row then b.dcol (-1) (-2)
  else b.dcol (-1) (-1)

/-- `Block.right` from solver.py. -/
def Block.right (b : Block) : Block :=
  if b.is_standing then b.dcol 1 2
  else if b.b1.row = b.b2.row then b.dcol 2 1
  else b.dcol 1 1

/-- `Block.up` from solver.py. -/
def Block.up (b : Block) : Block :=
  if b.is_standing then b.drow (-2) (-1)
  else if b.b1.row = b.b2.row then b.drow (-1) (-1)
  else b.drow (-1) (-2)

/-- `Block.down` from solver.py. -/
def Block.down (b : Block) : Block :=
  if b.is_standing then b.drow 1 2
  else if b.b1.row = b.b2.row then b.drow 1 1
  else b.drow 2 1

/-- `Block.neighbors`: the four tilt results with their move tags,
in the order of solver.py. -/
def Block.neighbors (b : Block) : List (Block × Move) :=
  [(b.left, Move.LEFT), (b.right, Move.RIGHT), (b.up, Move.UP), (b.down, Move.DOWN)]

/-- `Solver.done`: standing block whose cell is the goal. -/
def done (goal : Pos) (b : Block) : Bool := b.is_standing && decide (b.b1 = goal)

/-- `Solver.is_legal`: both cells satisfy the terrain predicate. -/
def is_legal (t : Pos → Bool) (p1 p2 : Pos) : Bool := t p1 && t p2

/-- The body of the `for b, m in neighbors` loop of `Solver.solve`:
skip neighbours already explored, skip illegal ones, and pair the rest
with the extended history, in order. -/
def processNeighbors (t : Pos → Bool) (ex2 : List Block) (history : List Move) :
    List (Block × Move) → List (Block × List Move)
  | [] => []
  | (b, m) :: rest =>
    if b ∈ ex2 then processNeighbors t ex2 history rest
    else if !(is_legal t b.b1 b.b2) then processNeighbors t ex2 history rest
    else (b, history ++ [m]) :: processNeighbors t ex2 history rest

/-- The `while (not self.fifo.empty())` loop of `Solver.solve`, with fuel
counting dequeues.  Returns the result together with the final queue and
explored set (both of which the Python object keeps after the call). -/
def solveLoop (t : Pos → Bool) (goal : Pos) :
    Nat → List (Block × List Move) → List Block →
    Option (List Move) × List (Block × List Move) × List Block
  | _, [], ex => (some [], [], ex)
  | 0, bh :: rest, ex => (none, bh :: rest, ex)
  | fuel + 1, (block, history) :: rest, ex =>
    if done goal block then (some history, rest, ex)
    else
      solveLoop t goal fuel
        (rest ++ processNeighbors t (block :: ex) history block.neighbors)
        (block :: ex)

/-- The `Solver` object: explored set and FIFO queue (created empty by
`__init__` and kept on the instance), plus goal, start and terrain. -/
structure Solver where
  explored : List Block
  fifo : List (Block × List Move)
  goal : Pos
  start : Pos
  terrain : Pos → Bool

/-- `Solver.__init__`: empty explored set and queue. -/
def Solver.make (start goal : Pos) (terrain : Pos → Bool) : Solver :=
  ⟨[], [], goal, start, terrain⟩

/-- `Solver.solve`: enqueue the standing start configuration onto the
instance's queue, run the loop, and keep the final queue and explored
set on the instance. -/
def Solver.solve (fuel : Nat) (s : Solver) : Option (List Move) × Solver :=
  let r := solveLoop s.terrain s.goal fuel (s.fifo ++ [(⟨s.start, s.start⟩, [])]) s.explored
  (r.1, { s with fifo := r.2.1, explored := r.2.2 })

/-- One call of `Solver.solve` on a freshly constructed `Solver`
(the move list only). -/
def solve (start goal : Pos) (t : Pos → Bool) (fuel : Nat) : Option (List Move) :=
  (solveLoop t goal fuel [(⟨start, start⟩, [])] []).1

/-! ## Paths of tilt moves -/

/-- Apply one tilt move. -/
def stepB (b : Block) : Move → Block
  | Move.LEFT => b.left
  | Move.RIGHT => b.right
  | Move.UP => b.up
  | Move.DOWN => b.down

/-- Apply a list of tilt moves. -/
def replay (b : Block) : List Move → Block
  | [] => b
  | m :: ms => replay (stepB b m) ms

/-- After each move of the list, the resulting configuration's two cells
satisfy the terrain predicate. -/
def legalFrom (t : Pos → Bool) (b : Block) : List Move → Bool
  | [] => true
  | m :: ms => is_legal t (stepB b m).b1 (stepB b m).b2 && legalFrom t (stepB b m) ms

/-- The configurations visited after each move (excluding the start). -/
def tailNodes (b : Block) : List Move → List Block
  | [] => []
  | m :: ms => stepB b m :: tailNodes (stepB b m) ms

/-- All configurations visited along a move list, the start included. -/
def nodes (b : Block) (ms : List Move) : List Block := b :: tailNodes b ms

/-- The standing configuration at a cell. -/
def startBlock (start : Pos) : Block := ⟨start, start⟩

/-- A legal move sequence from the standing start to a standing goal. -/
def goalPath (start goal : Pos) (t : Pos → Bool) (ms : List Move) : Prop :=
  legalFrom t (startBlock start) ms = true ∧
    done goal (replay (startBlock start) ms) = true

/-- Well-formed configuration: the two cells identical, or adjacent in
canonical order (same row and `b2` one column right, or same column and
`b2` one row below). -/
def wf (b : Block) : Bool :=
  decide (b.b1 = b.b2) ||
  (decide (b.b1.row = b.b2.row) && decide (b.b2.col = b.b1.col + 1)) ||
  (decide (b.b1.col = b.b2.col) && decide (b.b2.row = b.b1.row + 1))

/-- Lexicographic order on cells (by row, then column). -/
def lexLe (p q : Pos) : Bool :=
  decide (p.row < q.row) || (decide (p.row = q.row) && decide (p.col ≤ q.col))

/-- Adjacent cells: same row and columns differing by one, or same column
and rows differing by one. -/
def adjacentCells (p q : Pos) : Bool :=
  (decide (p.row = q.row) && (decide (q.col = p.col + 1) || decide (p.col = q.col + 1))) ||
  (decide (p.col = q.col) && (decide (q.row = p.row + 1) || decide (p.row = q.row + 1)))

/-- The terrain of the concrete scenario in the spec: rows 0–2,
columns 0–3 traversable, everything else not. -/
def terrainRect : Pos → Bool := fun p =>
  decide (0 ≤ p.row) && decide (p.row ≤ 2) && decide (0 ≤ p.col) && decide (p.col ≤ 3)

/-- A 1×4 strip terrain: row 0, columns 0–3 traversable. -/
def terrainStrip : Pos → Bool := fun p =>
  decide (p.row = 0) && decide (0 ≤ p.col) && decide (p.col ≤ 3)

/-- Every record of the queue except the first has a history at most one
move longer than the first record's history. -/
def twoLevelBound : List (Block × List Move) → Prop
  | [] => True
  | bh :: rest => ∀ bh2 ∈ rest, bh2.2.length ≤ bh.2.length + 1

/-- The queue covers the path `ms` starting at configuration `b`, which
lies at depth `k` from the start: some node of the path, at depth `j ≥ k`,
is in the queue with a history of length at most `j`, and the nodes of
the path strictly beyond it avoid the explored set. -/
def CutHit (q : List (Block × List Move)) (ex : List Block) :
    Block → Nat → List Move → Prop
  | b, k, [] => ∃ h, (b, h) ∈ q ∧ h.length ≤ k
  | b, k, m :: ms =>
      (∃ h, (b, h) ∈ q ∧ h.length ≤ k ∧ ∀ c ∈ tailNodes b (m :: ms), c ∉ ex) ∨
      CutHit q ex (stepB b m) (k + 1) ms

/-- Loop invariant of the breadth-first search, for start configuration
`sb`, queue `q` and explored set `ex`. -/
structure SearchInv (t : Pos → Bool) (goal : Pos) (sb : Block)
    (q : List (Block × List Move)) (ex : List Block) : Prop where
  sound : ∀ bh ∈ q, legalFrom t sb bh.2 = true ∧ replay sb bh.2 = bh.1
  sorted : List.Sorted (· ≤ ·) (q.map fun bh => bh.2.length)
  twoLevel : twoLevelBound q
  earlier : ∀ bh ∈ q, ∀ k < bh.2.length, replay sb (bh.2.take k) ∈ ex
  nodupNodes : ∀ bh ∈ q, (nodes sb bh.2).Nodup
  exNotDone : ∀ c ∈ ex, done goal c = false
  cut : ∀ ms, legalFrom t sb ms = true → replay sb ms ∈ ex ∨ CutHit q ex sb 0 ms

/-- All path nodes of every queued record belong to `S`. -/
def nodesInS (S : Finset Block) (sb : Block) (q : List (Block × List Move)) : Prop :=
  ∀ bh ∈ q, ∀ c ∈ nodes sb bh.2, c ∈ S

/-- Termination measure for the search loop: level-weighted queue size. -/
def measureM (N : Nat) (q : List (Block × List Move)) : Nat :=
  (q.map fun bh => 5 ^ (N - (bh.2.length + 1))).sum

/-- The closed set of block configurations for the strip terrain:
standing on each of its four cells, or lying across two adjacent ones. -/
def stripBlocks : Finset Block :=
  ({⟨⟨0,0⟩,⟨0,0⟩⟩, ⟨⟨0,1⟩,⟨0,1⟩⟩, ⟨⟨0,2⟩,⟨0,2⟩⟩, ⟨⟨0,3⟩,⟨0,3⟩⟩,
    ⟨⟨0,0⟩,⟨0,1⟩⟩, ⟨⟨0,1⟩,⟨0,2⟩⟩, ⟨⟨0,2⟩,⟨0,3⟩⟩} : Finset Block)

/-! ## Basic equations of the search loop -/

theorem solveLoop_nil (t : Pos → Bool) (g : Pos) (fuel : Nat) (ex : List Block) :
    solveLoop t g fuel [] ex = (some [], [], ex) := by
  cases fuel <;> rfl

theorem solveLoop_zero (t : Pos → Bool) (g : Pos) (bh : Block × List Move)
    (rest : List (Block × List Move)) (ex : List Block) :
    solveLoop t g 0 (bh :: rest) ex = (none, bh :: rest, ex) := rfl

theorem solveLoop_succ (t : Pos → Bool) (g : Pos) (fuel : Nat) (b : Block)
    (h : List Move) (rest : List (Block × List Move)) (ex : List Block) :
    solveLoop t g (fuel + 1) ((b, h) :: rest) ex =
      if done g b then (some h, rest, ex)
      else solveLoop t g fuel
        (rest ++ processNeighbors t (b :: ex) h b.neighbors) (b :: ex) := rfl

theorem solveLoop_add_fuel (t : Pos → Bool) (g : Pos) :
    ∀ fuel q ex, (solveLoop t g fuel q ex).1.isSome = true →
      ∀ k, solveLoop t g (fuel + k) q ex = solveLoop t g fuel q ex := by
  intro fuel
  induction fuel with
  | zero =>
    intro q ex h k
    cases q with
    | nil => rw [solveLoop_nil, solveLoop_nil]
    | cons bh rest => rw [solveLoop_zero] at h; simp at h
  | succ n ih =>
    intro q ex h k
    cases q with
    | nil => rw [solveLoop_nil, solveLoop_nil]
    | cons bh rest =>
      obtain ⟨b, hh⟩ := bh
      have harith : n + 1 + k = (n + k) + 1 := by omega
      rw [harith, solveLoop_succ, solveLoop_succ]
      rw [solveLoop_succ] at h
      by_cases hd : done g b = true
      · simp [hd]
      · simp only [hd, Bool.false_eq_true, if_false] at h ⊢
        exact ih _ _ h k

theorem solveLoop_explored_mono (t : Pos → Bool) (g : Pos) :
    ∀ fuel q ex c, c ∈ ex → c ∈ (solveLoop t g fuel q ex).2.2 := by
  intro fuel
  induction fuel with
  | zero =>
    intro q ex c hc
    cases q with
    | nil => rw [solveLoop_nil]; exact hc
    | cons bh rest => rw [solveLoop_zero]; exact hc
  | succ n ih =>
    intro q ex c hc
    cases q with
    | nil => rw [solveLoop_nil]; exact hc
    | cons bh rest =>
      obtain ⟨b, hh⟩ := bh
      rw [solveLoop_succ]
      by_cases hd : done g b = true
      · simp only [hd, if_true]; exact hc
      · simp only [hd, Bool.false_eq_true, if_false]
        exact ih _ _ _ (List.mem_cons_of_mem _ hc)

/-! ## Claims about concrete runs and the constructor check -/

/-- C10: for every cell `p` and every terrain predicate, solving with
`start = p` and `goal = p` returns the empty sequence, whatever the
terrain says about `p`: the goal test on the dequeued start record
precedes any terrain query. -/
theorem solve_start_eq_goal (p : Pos) (t : Pos → Bool) (f : Nat) :
    solve p p t (f + 1) = some [] := by
  simp [solve, solveLoop_succ, done, Block.is_standing]

/-- C9: on the terrain with rows 0–2 and columns 0–3 traversable, with
start (0,0) and goal (0,3), the solver returns exactly
`[RIGHT, RIGHT]` (length 2). -/
theorem solve_rect_scenario (f : Nat) :
    solve ⟨0, 0⟩ ⟨0, 3⟩ terrainRect (4 + f) = some [Move.RIGHT, Move.RIGHT] := by
  have base : (solveLoop terrainRect ⟨0, 3⟩ 4 [(⟨⟨0, 0⟩, ⟨0, 0⟩⟩, [])] []).1 =
      some [Move.RIGHT, Move.RIGHT] := by decide
  have hsome : (solveLoop terrainRect ⟨0, 3⟩ 4 [(⟨⟨0, 0⟩, ⟨0, 0⟩⟩, [])] []).1.isSome = true := by
    rw [base]; rfl
  show (solveLoop terrainRect ⟨0, 3⟩ (4 + f) [(⟨⟨0, 0⟩, ⟨0, 0⟩⟩, [])] []).1 = _
  rw [solveLoop_add_fuel terrainRect ⟨0, 3⟩ 4 _ _ hsome f, base]

/-- C4 counterexample: the cells (0,0) and (0,2) are neither identical
nor adjacent, yet the construction-time check accepts them — the
`__post_init__` assertion only compares coordinates componentwise and
never checks adjacency. -/
theorem post_init_accepts_nonadjacent :
    Block.post_init_check ⟨0, 0⟩ ⟨0, 2⟩ = true ∧
    adjacentCells ⟨0, 0⟩ ⟨0, 2⟩ = false ∧
    (Pos.mk 0 0) ≠ (Pos.mk 0 2) ∧
    wf ⟨⟨0, 0⟩, ⟨0, 2⟩⟩ = false := by decide

/-- C4 amended: construction of a Block from cells `(p, q)` is rejected
exactly when the componentwise order `p.row ≤ q.row ∧ p.col ≤ q.col`
fails; adjacency of the two cells is not checked at construction time. -/
theorem post_init_check_iff (p q : Pos) :
    Block.post_init_check p q = true ↔ (p.row ≤ q.row ∧ p.col ≤ q.col) := by
  simp [Block.post_init_check]

theorem post_init_check_iff_witness :
    Block.post_init_check ⟨0, 0⟩ ⟨1, 1⟩ = true ↔ ((0 : Int) ≤ 1 ∧ (0 : Int) ≤ 1) :=
  post_init_check_iff ⟨0, 0⟩ ⟨1, 1⟩

/-- C5 counterexample: on the same `Solver` instance (strip terrain,
start (0,0), goal (0,3)), the first call to `solve` returns
`[RIGHT, RIGHT]` but the second call returns `[]`: the explored set and
queue live on the instance, created by `__init__`, not per call. -/
theorem solver_second_call_differs :
    ((Solver.make ⟨0, 0⟩ ⟨0, 3⟩ terrainStrip).solve 20).1 = some [Move.RIGHT, Move.RIGHT] ∧
    (((Solver.make ⟨0, 0⟩ ⟨0, 3⟩ terrainStrip).solve 20).2.solve 20).1 = some [] := by
  decide

/-- C5 amended: the explored set and the FIFO queue are created empty at
`Solver` construction, not at each call to `solve`; they persist across
calls (the explored set of the instance after a call contains every
block explored before the call), so consecutive calls on one instance
need not return equal move sequences. -/
theorem solver_explored_persists (fuel : Nat) (s : Solver) (c : Block)
    (hc : c ∈ s.explored) : c ∈ (s.solve fuel).2.explored := by
  show c ∈ (solveLoop s.terrain s.goal fuel _ s.explored).2.2
  exact solveLoop_explored_mono _ _ _ _ _ _ hc

theorem solver_explored_persists_witness :
    (⟨⟨7, 7⟩, ⟨7, 7⟩⟩ : Block) ∈
      ((⟨[⟨⟨7, 7⟩, ⟨7, 7⟩⟩], [], ⟨0, 0⟩, ⟨0, 0⟩, fun _ => false⟩ : Solver).solve 3).2.explored :=
  solver_explored_persists 3 _ _ (by decide)

/-! ## Block geometry claims -/

/-- C2: for every well-formed configuration, tilting follows the 3-way
case split: a standing block at `p` becomes a lying block spanning the
cells one and two steps away in the tilt direction; a lying block tilted
along its long axis becomes standing one cell beyond the end in the
direction of travel (left at `b1` minus one column, right at `b2` plus
one column; up at `b1` minus one row, down at `b2` plus one row); a
lying block tilted perpendicular to its long axis shifts both cells by
one in that direction. -/
theorem tilt_case_split (b : Block) :
    (b.is_standing = true →
      b.left = ⟨b.b1.dcol (-2), b.b1.dcol (-1)⟩ ∧
      b.right = ⟨b.b1.dcol 1, b.b1.dcol 2⟩ ∧
      b.up = ⟨b.b1.drow (-2), b.b1.drow (-1)⟩ ∧
      b.down = ⟨b.b1.drow 1, b.b1.drow 2⟩) ∧
    (b.b1.row = b.b2.row → b.b2.col = b.b1.col + 1 →
      b.left = ⟨b.b1.dcol (-1), b.b1.dcol (-1)⟩ ∧
      b.right = ⟨b.b2.dcol 1, b.b2.dcol 1⟩ ∧
      b.up = ⟨b.b1.drow (-1), b.b2.drow (-1)⟩ ∧
      b.down = ⟨b.b1.drow 1, b.b2.drow 1⟩) ∧
    (b.b1.col = b.b2.col → b.b2.row = b.b1.row + 1 →
      b.up = ⟨b.b1.drow (-1), b.b1.drow (-1)⟩ ∧
      b.down = ⟨b.b2.drow 1, b.b2.drow 1⟩ ∧
      b.left = ⟨b.b1.dcol (-1), b.b2.dcol (-1)⟩ ∧
      b.right = ⟨b.b1.dcol 1, b.b2.dcol 1⟩) := by
  obtain ⟨⟨r1, c1⟩, ⟨r2, c2⟩⟩ := b
  refine ⟨fun hst => ?_, fun hr hc => ?_, fun hc hr => ?_⟩
  · simp only [Block.is_standing, decide_eq_true_eq, Pos.mk.injEq] at hst
    obtain ⟨h1, h2⟩ := hst
    subst h1; subst h2
    simp [Block.left, Block.right, Block.up, Block.down, Block.is_standing,
      Block.dcol, Block.drow, Pos.dcol, Pos.drow]
  · simp only at hr hc
    subst hr; subst hc
    simp [Block.left, Block.right, Block.up, Block.down, Block.is_standing,
      Block.dcol, Block.drow, Pos.dcol, Pos.drow, Pos.mk.injEq, Block.mk.injEq]
    omega
  · simp only at hr hc
    subst hc; subst hr
    simp [Block.left, Block.right, Block.up, Block.down, Block.is_standing,
      Block.dcol, Block.drow, Pos.dcol, Pos.drow, Pos.mk.injEq, Block.mk.injEq]
    omega

theorem tilt_case_split_witness :
    ((⟨⟨0, 0⟩, ⟨0, 0⟩⟩ : Block).left = ⟨⟨0, -2⟩, ⟨0, -1⟩⟩ ∧
      (⟨⟨0, 0⟩, ⟨0, 0⟩⟩ : Block).right = ⟨⟨0, 1⟩, ⟨0, 2⟩⟩ ∧
      (⟨⟨0, 0⟩, ⟨0, 0⟩⟩ : Block).up = ⟨⟨-2, 0⟩, ⟨-1, 0⟩⟩ ∧
      (⟨⟨0, 0⟩, ⟨0, 0⟩⟩ : Block).down = ⟨⟨1, 0⟩, ⟨2, 0⟩⟩) ∧
    ((⟨⟨0, 0⟩, ⟨0, 1⟩⟩ : Block).left = ⟨⟨0, -1⟩, ⟨0, -1⟩⟩ ∧
      (⟨⟨0, 0⟩, ⟨0, 1⟩⟩ : Block).right = ⟨⟨0, 2⟩, ⟨0, 2⟩⟩ ∧
      (⟨⟨0, 0⟩, ⟨0, 1⟩⟩ : Block).up = ⟨⟨-1, 0⟩, ⟨-1, 1⟩⟩ ∧
      (⟨⟨0, 0⟩, ⟨0, 1⟩⟩ : Block).down = ⟨⟨1, 0⟩, ⟨1, 1⟩⟩) ∧
    ((⟨⟨0, 0⟩, ⟨1, 0⟩⟩ : Block).up = ⟨⟨-1, 0⟩, ⟨-1, 0⟩⟩ ∧
      (⟨⟨0, 0⟩, ⟨1, 0⟩⟩ : Block).down = ⟨⟨2, 0⟩, ⟨2, 0⟩⟩ ∧
      (⟨⟨0, 0⟩, ⟨1, 0⟩⟩ : Block).left = ⟨⟨0, -1⟩, ⟨1, -1⟩⟩ ∧
      (⟨⟨0, 0⟩, ⟨1, 0⟩⟩ : Block).right = ⟨⟨0, 1⟩, ⟨1, 1⟩⟩) :=
  ⟨(tilt_case_split ⟨⟨0, 0⟩, ⟨0, 0⟩⟩).1 (by decide),
   (tilt_case_split ⟨⟨0, 0⟩, ⟨0, 1⟩⟩).2.1 (by decide) (by decide),
   (tilt_case_split ⟨⟨0, 0⟩, ⟨1, 0⟩⟩).2.2 (by decide) (by decide)⟩

/-- C7: every tilt of a well-formed configuration is again well-formed,
its cells satisfy the componentwise order asserted by the constructor
(so the assertion never fires on configurations produced by `tilt`),
and the cells are in lexicographic order. -/
theorem tilt_preserves_wf (b : Block) (m : Move) (hb : wf b = true) :
    wf (stepB b m) = true ∧
    Block.post_init_check (stepB b m).b1 (stepB b m).b2 = true ∧
    lexLe (stepB b m).b1 (stepB b m).b2 = true := by
  obtain ⟨⟨r1, c1⟩, ⟨r2, c2⟩⟩ := b
  simp only [wf, Bool.or_eq_true, Bool.and_eq_true, decide_eq_true_eq,
    Pos.mk.injEq] at hb
  rcases hb with (⟨h1, h2⟩ | ⟨h1, h2⟩) | ⟨h1, h2⟩ <;>
    subst h1 <;> subst h2 <;>
    cases m <;>
    simp [stepB, Block.left, Block.right, Block.up, Block.down,
      Block.is_standing, Block.dcol, Block.drow, Pos.dcol, Pos.drow,
      wf, Block.post_init_check, lexLe, Pos.mk.injEq] <;>
    omega

theorem tilt_preserves_wf_witness :
    wf (stepB ⟨⟨0, 0⟩, ⟨0, 1⟩⟩ Move.RIGHT) = true ∧
    Block.post_init_check (stepB ⟨⟨0, 0⟩, ⟨0, 1⟩⟩ Move.RIGHT).b1
      (stepB ⟨⟨0, 0⟩, ⟨0, 1⟩⟩ Move.RIGHT).b2 = true ∧
    lexLe (stepB ⟨⟨0, 0⟩, ⟨0, 1⟩⟩ Move.RIGHT).b1
      (stepB ⟨⟨0, 0⟩, ⟨0, 1⟩⟩ Move.RIGHT).b2 = true :=
  tilt_preserves_wf ⟨⟨0, 0⟩, ⟨0, 1⟩⟩ Move.RIGHT (by decide)

/-! ## Path lemmas -/

theorem replay_append (l1 l2 : List Move) : ∀ b, replay b (l1 ++ l2) = replay (replay b l1) l2 := by
  induction l1 with
  | nil => intro b; rfl
  | cons m ms ih => intro b; simp only [List.cons_append, replay]; exact ih (stepB b m)

theorem legalFrom_append (t : Pos → Bool) (l1 l2 : List Move) : ∀ b,
    legalFrom t b (l1 ++ l2) = (legalFrom t b l1 && legalFrom t (replay b l1) l2) := by
  induction l1 with
  | nil => intro b; simp [legalFrom, replay]
  | cons m ms ih =>
    intro b
    simp only [List.cons_append, legalFrom, replay, List.append_eq,
      ih (stepB b m), Bool.and_assoc]

theorem tailNodes_append (l1 l2 : List Move) : ∀ b,
    tailNodes b (l1 ++ l2) = tailNodes b l1 ++ tailNodes (replay b l1) l2 := by
  induction l1 with
  | nil => intro b; rfl
  | cons m ms ih =>
    intro b
    simp only [List.cons_append, tailNodes, replay, List.append_eq, ih (stepB b m)]

theorem tailNodes_length (ms : List Move) : ∀ b, (tailNodes b ms).length = ms.length := by
  induction ms with
  | nil => intro b; rfl
  | cons m ms ih => intro b; simp [tailNodes, ih]

theorem mem_tailNodes_iff (ms : List Move) : ∀ b c,
    c ∈ tailNodes b ms ↔ ∃ j, 1 ≤ j ∧ j ≤ ms.length ∧ replay b (ms.take j) = c := by
  induction ms with
  | nil =>
    intro b c
    simp only [tailNodes, List.not_mem_nil, List.length_nil, false_iff]
    rintro ⟨j, hj1, hj2, _⟩
    omega
  | cons m ms ih =>
    intro b c
    simp only [tailNodes, List.mem_cons, ih (stepB b m), List.length_cons]
    constructor
    · rintro (rfl | ⟨j, hj1, hj2, hjr⟩)
      · exact ⟨1, le_refl 1, by omega, rfl⟩
      · refine ⟨j + 1, by omega, by omega, ?_⟩
        simpa [List.take, replay] using hjr
    · rintro ⟨j, hj1, hj2, hjr⟩
      match j, hj1 with
      | 1, _ =>
        left
        simpa [List.take, replay] using hjr.symm
      | j + 2, _ =>
        right
        exact ⟨j + 1, by omega, by omega, by simpa [List.take, replay] using hjr⟩

theorem mem_nodes_iff (b : Block) (ms : List Move) (c : Block) :
    c ∈ nodes b ms ↔ ∃ j, j ≤ ms.length ∧ replay b (ms.take j) = c := by
  simp only [nodes, List.mem_cons, mem_tailNodes_iff]
  constructor
  · rintro (rfl | ⟨j, hj1, hj2, hjr⟩)
    · exact ⟨0, Nat.zero_le _, rfl⟩
    · exact ⟨j, hj2, hjr⟩
  · rintro ⟨j, hj, hjr⟩
    match j with
    | 0 => left; exact hjr.symm
    | j + 1 => right; exact ⟨j + 1, by omega, hj, hjr⟩

theorem self_mem_nodes (b : Block) (ms : List Move) : b ∈ nodes b ms :=
  List.mem_cons_self _ _

theorem replay_mem_nodes (b : Block) (ms : List Move) : replay b ms ∈ nodes b ms := by
  rw [mem_nodes_iff]
  exact ⟨ms.length, le_refl _, by rw [List.take_length]⟩

theorem legalFrom_take (t : Pos → Bool) (b : Block) (ms : List Move) (j : Nat)
    (hl : legalFrom t b ms = true) : legalFrom t b (ms.take j) = true := by
  have h := legalFrom_append t (ms.take j) (ms.drop j) b
  rw [List.take_append_drop, hl] at h
  have h2 : (legalFrom t b (ms.take j) && legalFrom t (replay b (ms.take j)) (ms.drop j)) =
      true := h.symm
  simp only [Bool.and_eq_true] at h2
  exact h2.1

theorem legalFrom_drop (t : Pos → Bool) (b : Block) (ms : List Move) (j : Nat)
    (hl : legalFrom t b ms = true) : legalFrom t (replay b (ms.take j)) (ms.drop j) = true := by
  have h := legalFrom_append t (ms.take j) (ms.drop j) b
  rw [List.take_append_drop, hl] at h
  have h2 : (legalFrom t b (ms.take j) && legalFrom t (replay b (ms.take j)) (ms.drop j)) =
      true := h.symm
  simp only [Bool.and_eq_true] at h2
  exact h2.2

theorem legalFrom_last (t : Pos → Bool) (ms : List Move) : ∀ b,
    legalFrom t b ms = true → ms ≠ [] →
      is_legal t (replay b ms).b1 (replay b ms).b2 = true := by
  induction ms with
  | nil => intro b _ hne; exact absurd rfl hne
  | cons m ms ih =>
    intro b hl _
    rw [legalFrom, Bool.and_eq_true] at hl
    cases ms with
    | nil => exact hl.1
    | cons m2 ms2 => exact ih (stepB b m) hl.2 (List.cons_ne_nil _ _)

theorem neighbors_mem_eq (b bn : Block) (m : Move) (h : (bn, m) ∈ b.neighbors) :
    bn = stepB b m := by
  simp only [Block.neighbors, List.mem_cons, List.mem_singleton, Prod.mk.injEq,
    List.not_mem_nil, or_false] at h
  rcases h with ⟨h1, h2⟩ | ⟨h1, h2⟩ | ⟨h1, h2⟩ | ⟨h1, h2⟩ <;> subst h2 <;>
    simpa [stepB] using h1

theorem stepB_mem_neighbors (b : Block) (m : Move) : (stepB b m, m) ∈ b.neighbors := by
  cases m <;> simp [stepB, Block.neighbors]

theorem mem_processNeighbors (t : Pos → Bool) (ex2 : List Block) (history : List Move) :
    ∀ l bh, bh ∈ processNeighbors t ex2 history l →
      ∃ m, (bh.1, m) ∈ l ∧ bh.1 ∉ ex2 ∧ is_legal t bh.1.b1 bh.1.b2 = true ∧
        bh.2 = history ++ [m] := by
  intro l
  induction l with
  | nil => intro bh h; simp [processNeighbors] at h
  | cons bm rest ih =>
    intro bh h
    obtain ⟨b, m⟩ := bm
    rw [processNeighbors] at h
    by_cases hmem : b ∈ ex2
    · rw [if_pos hmem] at h
      obtain ⟨m2, hm2, hx, hleg, he⟩ := ih bh h
      exact ⟨m2, List.mem_cons_of_mem _ hm2, hx, hleg, he⟩
    · rw [if_neg hmem] at h
      by_cases hleg : is_legal t b.b1 b.b2 = true
      · rw [hleg] at h
        simp only [Bool.not_true, Bool.false_eq_true, if_false] at h
        rcases List.mem_cons.mp h with heq | h2
        · subst heq
          exact ⟨m, List.mem_cons_self _ _, hmem, hleg, rfl⟩
        · obtain ⟨m2, hm2, hx, hleg2, he⟩ := ih bh h2
          exact ⟨m2, List.mem_cons_of_mem _ hm2, hx, hleg2, he⟩
      · rw [Bool.not_eq_true] at hleg
        rw [hleg] at h
        simp only [Bool.not_false, if_true] at h
        obtain ⟨m2, hm2, hx, hleg2, he⟩ := ih bh h
        exact ⟨m2, List.mem_cons_of_mem _ hm2, hx, hleg2, he⟩

theorem processNeighbors_insert (t : Pos → Bool) (ex2 : List Block) (history : List Move) :
    ∀ l (b : Block) (m : Move), (b, m) ∈ l → b ∉ ex2 → is_legal t b.b1 b.b2 = true →
      (b, history ++ [m]) ∈ processNeighbors t ex2 history l := by
  intro l
  induction l with
  | nil => intro b m h; simp at h
  | cons bm rest ih =>
    intro b m hmem hx hleg
    obtain ⟨b2, m2⟩ := bm
    rw [processNeighbors]
    rcases List.mem_cons.mp hmem with heq | h2
    · obtain ⟨rfl, rfl⟩ := Prod.mk.injEq .. ▸ heq
      rw [if_neg hx, hleg]
      simp only [Bool.not_true, Bool.false_eq_true, if_false]
      exact List.mem_cons_self _ _
    · by_cases hmem2 : b2 ∈ ex2
      · rw [if_pos hmem2]; exact ih b m h2 hx hleg
      · rw [if_neg hmem2]
        by_cases hleg2 : is_legal t b2.b1 b2.b2 = true
        · rw [hleg2]
          simp only [Bool.not_true, Bool.false_eq_true, if_false]
          exact List.mem_cons_of_mem _ (ih b m h2 hx hleg)
        · rw [Bool.not_eq_true] at hleg2
          rw [hleg2]
          simp only [Bool.not_false, if_true]
          exact ih b m h2 hx hleg

theorem processNeighbors_length_le (t : Pos → Bool) (ex2 : List Block) (history : List Move) :
    ∀ l, (processNeighbors t ex2 history l).length ≤ l.length := by
  intro l
  induction l with
  | nil => simp [processNeighbors]
  | cons bm rest ih =>
    obtain ⟨b, m⟩ := bm
    rw [processNeighbors]
    by_cases hmem : b ∈ ex2
    · rw [if_pos hmem]; simpa using Nat.le_succ_of_le ih
    · rw [if_neg hmem]
      by_cases hleg : is_legal t b.b1 b.b2 = true
      · rw [hleg]
        simp only [Bool.not_true, Bool.false_eq_true, if_false, List.length_cons]
        simpa using ih
      · rw [Bool.not_eq_true] at hleg
        rw [hleg]
        simp only [Bool.not_false, if_true, List.length_cons]
        exact Nat.le_succ_of_le ih

/-! ## Lemmas about the queue-cut predicate -/

theorem CutHit_nil_eq (q : List (Block × List Move)) (ex : List Block) (b : Block) (k : Nat) :
    CutHit q ex b k [] = (∃ h, (b, h) ∈ q ∧ h.length ≤ k) := rfl

theorem CutHit_cons_eq (q : List (Block × List Move)) (ex : List Block) (b : Block) (k : Nat)
    (m : Move) (ms : List Move) :
    CutHit q ex b k (m :: ms) =
      ((∃ h, (b, h) ∈ q ∧ h.length ≤ k ∧ ∀ c ∈ tailNodes b (m :: ms), c ∉ ex) ∨
        CutHit q ex (stepB b m) (k + 1) ms) := rfl

theorem CutHit_mem (q : List (Block × List Move)) (ex : List Block) :
    ∀ ms (b : Block) (k : Nat), CutHit q ex b k ms →
      ∃ bh, bh ∈ q ∧ bh.2.length ≤ k + ms.length := by
  intro ms
  induction ms with
  | nil =>
    intro b k hc
    rw [CutHit_nil_eq] at hc
    obtain ⟨hh, hm, hl⟩ := hc
    exact ⟨(b, hh), hm, by simpa using hl⟩
  | cons m msT ih =>
    intro b k hc
    rw [CutHit_cons_eq] at hc
    rcases hc with ⟨hh, hm, hl, _⟩ | h2
    · refine ⟨(b, hh), hm, ?_⟩
      simp only [List.length_cons]
      omega
    · obtain ⟨bh, hm, hl⟩ := ih (stepB b m) (k + 1) h2
      refine ⟨bh, hm, ?_⟩
      simp only [List.length_cons]
      omega

theorem CutHit_extend (q : List (Block × List Move)) (ex : List Block) :
    ∀ (ms1 ms2 : List Move) (b : Block) (k : Nat),
      CutHit q ex (replay b ms1) (k + ms1.length) ms2 → CutHit q ex b k (ms1 ++ ms2) := by
  intro ms1
  induction ms1 with
  | nil =>
    intro ms2 b k h
    simpa [replay] using h
  | cons m ms1 ih =>
    intro ms2 b k h
    rw [List.cons_append, CutHit_cons_eq]
    refine Or.inr ?_
    have hr : replay b (m :: ms1) = replay (stepB b m) ms1 := rfl
    have ha : k + (m :: ms1).length = k + 1 + ms1.length := by
      simp only [List.length_cons]
      omega
    rw [hr, ha] at h
    exact ih ms2 (stepB b m) (k + 1) h

theorem cutHit_walk (t : Pos → Bool) (b0 : Block) (hist : List Move)
    (rest : List (Block × List Move)) (ex : List Block) :
    ∀ n ms, ms.length ≤ n → legalFrom t b0 ms = true →
      (∀ c ∈ tailNodes b0 ms, c ∉ ex) → ∀ k, hist.length ≤ k →
      replay b0 ms ∈ (b0 :: ex) ∨
        CutHit (rest ++ processNeighbors t (b0 :: ex) hist b0.neighbors) (b0 :: ex) b0 k ms := by
  intro n
  induction n with
  | zero =>
    intro ms hlen _ _ k _
    have hnil : ms = [] := List.eq_nil_of_length_eq_zero (Nat.le_zero.mp hlen)
    subst hnil
    left
    exact List.mem_cons_self _ _
  | succ n ih =>
    intro ms hlen hleg hclean k hk
    cases ms with
    | nil =>
      left
      exact List.mem_cons_self _ _
    | cons m msT =>
      by_cases hrev : b0 ∈ tailNodes b0 (m :: msT)
      · obtain ⟨j, hj1, hj2, hjr⟩ := (mem_tailNodes_iff (m :: msT) b0 b0).mp hrev
        have hdlen : ((m :: msT).drop j).length ≤ n := by
          rw [List.length_drop]
          simp only [List.length_cons] at hlen hj2 ⊢
          omega
        have hdleg : legalFrom t b0 ((m :: msT).drop j) = true := by
          have hd := legalFrom_drop t b0 (m :: msT) j hleg
          rwa [hjr] at hd
        have hsplit : tailNodes b0 (m :: msT) =
            tailNodes b0 ((m :: msT).take j) ++ tailNodes b0 ((m :: msT).drop j) := by
          conv_lhs => rw [← List.take_append_drop j (m :: msT)]
          rw [tailNodes_append, hjr]
        have hdclean : ∀ c ∈ tailNodes b0 ((m :: msT).drop j), c ∉ ex := by
          intro c hc
          exact hclean c (hsplit ▸ List.mem_append_right _ hc)
        have hw := ih ((m :: msT).drop j) hdlen hdleg hdclean (k + j)
          (le_trans hk (Nat.le_add_right k j))
        have hlen_take : ((m :: msT).take j).length = j := by
          rw [List.length_take]
          omega
        rcases hw with hex | hcut
        · left
          have hre : replay b0 ((m :: msT).drop j) = replay b0 (m :: msT) := by
            conv_rhs => rw [← List.take_append_drop j (m :: msT)]
            rw [replay_append, hjr]
          rwa [hre] at hex
        · right
          have h2 := CutHit_extend
            (rest ++ processNeighbors t (b0 :: ex) hist b0.neighbors) (b0 :: ex)
            ((m :: msT).take j) ((m :: msT).drop j) b0 k
            (by rw [hjr, hlen_take]; exact hcut)
          rwa [List.take_append_drop] at h2
      · have hc1 : stepB b0 m ∈ tailNodes b0 (m :: msT) := by
          rw [tailNodes]
          exact List.mem_cons_self _ _
        have hc1ex : stepB b0 m ∉ ex := hclean _ hc1
        have hc1b0 : stepB b0 m ≠ b0 := by
          intro he
          rw [he] at hc1
          exact hrev hc1
        have hc1ex2 : stepB b0 m ∉ (b0 :: ex) := by
          intro hmm
          rcases List.mem_cons.mp hmm with he | he
          · exact hc1b0 he
          · exact hc1ex he
        have hleg1 : is_legal t (stepB b0 m).b1 (stepB b0 m).b2 = true := by
          rw [legalFrom, Bool.and_eq_true] at hleg
          exact hleg.1
        have hmemq : (stepB b0 m, hist ++ [m]) ∈
            processNeighbors t (b0 :: ex) hist b0.neighbors :=
          processNeighbors_insert t (b0 :: ex) hist b0.neighbors (stepB b0 m) m
            (stepB_mem_neighbors b0 m) hc1ex2 hleg1
        right
        rw [CutHit_cons_eq]
        refine Or.inr ?_
        cases msT with
        | nil =>
          rw [CutHit_nil_eq]
          refine ⟨hist ++ [m], List.mem_append_right _ hmemq, ?_⟩
          simp only [List.length_append, List.length_cons, List.length_nil]
          omega
        | cons m2 msT2 =>
          rw [CutHit_cons_eq]
          left
          refine ⟨hist ++ [m], List.mem_append_right _ hmemq, ?_, ?_⟩
          · simp only [List.length_append, List.length_cons, List.length_nil]
            omega
          · intro c hc hcex2
            have hcfull : c ∈ tailNodes b0 (m :: m2 :: msT2) := by
              rw [tailNodes]
              exact List.mem_cons_of_mem _ hc
            rcases List.mem_cons.mp hcex2 with he | he
            · exact hrev (he ▸ hcfull)
            · exact hclean c hcfull he

theorem cutHit_step (t : Pos → Bool) (b0 : Block) (hist : List Move)
    (rest : List (Block × List Move)) (ex : List Block)
    (hmin : ∀ bh ∈ (b0, hist) :: rest, hist.length ≤ bh.2.length) :
    ∀ ms (b : Block) (k : Nat), legalFrom t b ms = true →
      CutHit ((b0, hist) :: rest) ex b k ms →
      replay b ms ∈ (b0 :: ex) ∨
        CutHit (rest ++ processNeighbors t (b0 :: ex) hist b0.neighbors) (b0 :: ex) b k ms := by
  intro ms
  induction ms with
  | nil =>
    intro b k _ hcut
    rw [CutHit_nil_eq] at hcut
    obtain ⟨hh, hm, hl⟩ := hcut
    rcases List.mem_cons.mp hm with he | he
    · left
      have hb : b = b0 := congrArg Prod.fst he
      have hre : replay b ([] : List Move) = b := rfl
      rw [hre, hb]
      exact List.mem_cons_self _ _
    · right
      rw [CutHit_nil_eq]
      exact ⟨hh, List.mem_append_left _ he, hl⟩
  | cons m msT ih =>
    intro b k hleg hcut
    rw [CutHit_cons_eq] at hcut
    rcases hcut with ⟨hh, hm, hl, hclean⟩ | hdesc
    · by_cases hb0 : b0 ∈ nodes b (m :: msT)
      · obtain ⟨j, hj, hjr⟩ := (mem_nodes_iff b (m :: msT) b0).mp hb0
        have hminh : hist.length ≤ k := le_trans (hmin (b, hh) hm) hl
        have hdleg : legalFrom t b0 ((m :: msT).drop j) = true := by
          have hd := legalFrom_drop t b (m :: msT) j hleg
          rwa [hjr] at hd
        have hsplit : tailNodes b (m :: msT) =
            tailNodes b ((m :: msT).take j) ++ tailNodes b0 ((m :: msT).drop j) := by
          conv_lhs => rw [← List.take_append_drop j (m :: msT)]
          rw [tailNodes_append, hjr]
        have hdclean : ∀ c ∈ tailNodes b0 ((m :: msT).drop j), c ∉ ex := by
          intro c hc
          exact hclean c (hsplit ▸ List.mem_append_right _ hc)
        have hwalk := cutHit_walk t b0 hist rest ex ((m :: msT).drop j).length
          ((m :: msT).drop j) le_rfl hdleg hdclean (k + j)
          (le_trans hminh (Nat.le_add_right k j))
        have hlen_take : ((m :: msT).take j).length = j := by
          rw [List.length_take]
          omega
        rcases hwalk with hex | hcut2
        · left
          have hre : replay b0 ((m :: msT).drop j) = replay b (m :: msT) := by
            conv_rhs => rw [← List.take_append_drop j (m :: msT)]
            rw [replay_append, hjr]
          rwa [hre] at hex
        · right
          have h2 := CutHit_extend
            (rest ++ processNeighbors t (b0 :: ex) hist b0.neighbors) (b0 :: ex)
            ((m :: msT).take j) ((m :: msT).drop j) b k
            (by rw [hjr, hlen_take]; exact hcut2)
          rwa [List.take_append_drop] at h2
      · have hbne : b ≠ b0 := by
          intro he
          rw [he] at hb0
          exact hb0 (self_mem_nodes b0 (m :: msT))
        have hm2 : (b, hh) ∈ rest := by
          rcases List.mem_cons.mp hm with he | he
          · exact absurd (congrArg Prod.fst he) hbne
          · exact he
        right
        rw [CutHit_cons_eq]
        left
        refine ⟨hh, List.mem_append_left _ hm2, hl, ?_⟩
        intro c hc hcex2
        rcases List.mem_cons.mp hcex2 with he | he
        · refine hb0 ?_
          have hcn : c ∈ nodes b (m :: msT) := List.mem_cons_of_mem _ hc
          exact he ▸ hcn
        · exact hclean c hc he
    · have hlegT : legalFrom t (stepB b m) msT = true := by
        rw [legalFrom, Bool.and_eq_true] at hleg
        exact hleg.2
      rcases ih (stepB b m) (k + 1) hlegT hdesc with hex | hcut2
      · left
        exact hex
      · right
        rw [CutHit_cons_eq]
        exact Or.inr hcut2

theorem sorted_head_min (b0 : Block) (hist : List Move) (rest : List (Block × List Move))
    (hs : List.Sorted (· ≤ ·) (((b0, hist) :: rest).map fun bh => bh.2.length)) :
    ∀ bh ∈ (b0, hist) :: rest, hist.length ≤ bh.2.length := by
  intro bh hm
  rcases List.mem_cons.mp hm with he | he
  · rw [he]
  · simp only [List.map_cons] at hs
    exact List.rel_of_sorted_cons hs bh.2.length
      (List.mem_map_of_mem (fun bh => bh.2.length) he)

theorem sorted_of_all_eq (c : Nat) : ∀ l : List Nat, (∀ x ∈ l, x = c) →
    List.Sorted (· ≤ ·) l := by
  intro l
  induction l with
  | nil => intro _; exact List.sorted_nil
  | cons a l ih =>
    intro h
    rw [List.sorted_cons]
    refine ⟨fun b hb => ?_, ih fun x hx => h x (List.mem_cons_of_mem _ hx)⟩
    rw [h a (List.mem_cons_self _ _), h b (List.mem_cons_of_mem _ hb)]

theorem nodes_append_one (sb b0 : Block) (hist : List Move) (m : Move)
    (hr : replay sb hist = b0) :
    nodes sb (hist ++ [m]) = nodes sb hist ++ [stepB b0 m] := by
  simp only [nodes, tailNodes_append, hr]
  rfl

theorem head_nodes_subset (sb b0 : Block) (hist : List Move) (ex : List Block)
    (hr : replay sb hist = b0)
    (hearlier : ∀ k < hist.length, replay sb (hist.take k) ∈ ex) :
    ∀ c ∈ nodes sb hist, c ∈ (b0 :: ex) := by
  intro c hc
  obtain ⟨j, hj, hjr⟩ := (mem_nodes_iff sb hist c).mp hc
  rcases Nat.lt_or_ge j hist.length with hlt | hge
  · exact List.mem_cons_of_mem _ (hjr ▸ hearlier j hlt)
  · have hje : j = hist.length := le_antisymm hj hge
    rw [hje, List.take_length, hr] at hjr
    rw [← hjr]
    exact List.mem_cons_self _ _

theorem SearchInv_step (t : Pos → Bool) (g : Pos) (sb b0 : Block) (hist : List Move)
    (rest : List (Block × List Move)) (ex : List Block)
    (inv : SearchInv t g sb ((b0, hist) :: rest) ex)
    (hnd : done g b0 = false) :
    SearchInv t g sb
      (rest ++ processNeighbors t (b0 :: ex) hist b0.neighbors) (b0 :: ex) := by
  have hsound0 := inv.sound (b0, hist) (List.mem_cons_self _ _)
  have hmin := sorted_head_min b0 hist rest inv.sorted
  have hnewsLen : ∀ bh ∈ processNeighbors t (b0 :: ex) hist b0.neighbors,
      bh.2.length = hist.length + 1 := by
    intro bh hb
    obtain ⟨m, _, _, _, he2⟩ := mem_processNeighbors t (b0 :: ex) hist b0.neighbors bh hb
    rw [he2]
    simp
  refine ⟨?_, ?_, ?_, ?_, ?_, ?_, ?_⟩
  · -- sound
    intro bh hm
    rcases List.mem_append.mp hm with hr | hn
    · exact inv.sound bh (List.mem_cons_of_mem _ hr)
    · obtain ⟨m, hmn, hnx, hlegn, he2⟩ :=
        mem_processNeighbors t (b0 :: ex) hist b0.neighbors bh hn
      have hb1 : bh.1 = stepB b0 m := neighbors_mem_eq b0 bh.1 m hmn
      constructor
      · rw [he2, legalFrom_append, hsound0.2, hsound0.1]
        simp only [Bool.true_and, legalFrom, Bool.and_true]
        rw [← hb1]
        exact hlegn
      · rw [he2, replay_append, hsound0.2, hb1]
        rfl
  · -- sorted
    rw [List.map_append]
    refine List.pairwise_append.mpr ⟨?_, ?_, ?_⟩
    · have hs := inv.sorted
      simp only [List.map_cons] at hs
      exact hs.of_cons
    · refine sorted_of_all_eq (hist.length + 1) _ ?_
      intro x hx
      obtain ⟨bh, hb, hxe⟩ := List.mem_map.mp hx
      rw [← hxe]
      exact hnewsLen bh hb
    · intro a ha b hb
      obtain ⟨bha, hba, hae⟩ := List.mem_map.mp ha
      obtain ⟨bhb, hbb, hbe⟩ := List.mem_map.mp hb
      rw [← hae, ← hbe, hnewsLen bhb hbb]
      exact inv.twoLevel bha hba
  · -- twoLevel
    cases rest with
    | nil =>
      simp only [List.nil_append]
      cases hq : processNeighbors t (b0 :: ex) hist b0.neighbors with
      | nil => trivial
      | cons nh nt =>
        intro bh2 hb2
        have h1 : nh.2.length = hist.length + 1 := by
          refine hnewsLen nh ?_
          rw [hq]
          exact List.mem_cons_self _ _
        have h2 : bh2.2.length = hist.length + 1 := by
          refine hnewsLen bh2 ?_
          rw [hq]
          exact List.mem_cons_of_mem _ hb2
        omega
    | cons r1 rest2 =>
      intro bh2 hb2
      have hr1 : hist.length ≤ r1.2.length :=
        hmin r1 (List.mem_cons_of_mem _ (List.mem_cons_self _ _))
      rcases List.mem_append.mp hb2 with hr | hn
      · have h2l := inv.twoLevel bh2 (List.mem_cons_of_mem _ hr)
        have hred : ((b0, hist) : Block × List Move).2.length = hist.length := rfl
        rw [hred] at h2l
        omega
      · have := hnewsLen bh2 hn
        omega
  · -- earlier
    intro bh hm k hk
    rcases List.mem_append.mp hm with hr | hn
    · exact List.mem_cons_of_mem _ (inv.earlier bh (List.mem_cons_of_mem _ hr) k hk)
    · obtain ⟨m, hmn, hnx, hlegn, he2⟩ :=
        mem_processNeighbors t (b0 :: ex) hist b0.neighbors bh hn
      have hk2 : k ≤ hist.length := by
        rw [he2] at hk
        simp only [List.length_append, List.length_cons, List.length_nil] at hk
        omega
      rw [he2, List.take_append_of_le_length hk2]
      rcases Nat.lt_or_ge k hist.length with hlt | hge
      · exact List.mem_cons_of_mem _ (inv.earlier (b0, hist) (List.mem_cons_self _ _) k hlt)
      · have hke : k = hist.length := le_antisymm hk2 hge
        rw [hke, List.take_length, hsound0.2]
        exact List.mem_cons_self _ _
  · -- nodupNodes
    intro bh hm
    rcases List.mem_append.mp hm with hr | hn
    · exact inv.nodupNodes bh (List.mem_cons_of_mem _ hr)
    · obtain ⟨m, hmn, hnx, hlegn, he2⟩ :=
        mem_processNeighbors t (b0 :: ex) hist b0.neighbors bh hn
      have hb1 : bh.1 = stepB b0 m := neighbors_mem_eq b0 bh.1 m hmn
      rw [he2, nodes_append_one sb b0 hist m hsound0.2]
      rw [List.nodup_append]
      refine ⟨inv.nodupNodes (b0, hist) (List.mem_cons_self _ _), List.nodup_singleton _, ?_⟩
      intro a ha hae
      rw [List.mem_singleton] at hae
      have hin : a ∈ (b0 :: ex) :=
        head_nodes_subset sb b0 hist ex hsound0.2
          (inv.earlier (b0, hist) (List.mem_cons_self _ _)) a ha
      rw [hae, ← hb1] at hin
      exact hnx hin
  · -- exNotDone
    intro c hc
    rcases List.mem_cons.mp hc with he | he
    · rw [he]
      exact hnd
    · exact inv.exNotDone c he
  · -- cut
    intro ms hl
    rcases inv.cut ms hl with hex | hcut
    · exact Or.inl (List.mem_cons_of_mem _ hex)
    · exact cutHit_step t b0 hist rest ex hmin ms sb 0 hl hcut

theorem SearchInv_start (t : Pos → Bool) (g : Pos) (sb : Block) :
    SearchInv t g sb [(sb, [])] [] := by
  refine ⟨?_, ?_, ?_, ?_, ?_, ?_, ?_⟩
  · intro bh hm
    rw [List.mem_singleton] at hm
    subst hm
    exact ⟨rfl, rfl⟩
  · simp only [List.map_cons, List.map_nil]
    exact List.sorted_singleton _
  · intro bh2 hb2
    exact absurd hb2 (List.not_mem_nil _)
  · intro bh hm k hk
    rw [List.mem_singleton] at hm
    subst hm
    simp at hk
  · intro bh hm
    rw [List.mem_singleton] at hm
    subst hm
    exact List.nodup_singleton _
  · intro c hc
    exact absurd hc (List.not_mem_nil _)
  · intro ms _
    right
    cases ms with
    | nil =>
      rw [CutHit_nil_eq]
      exact ⟨[], List.mem_singleton.mpr rfl, by simp⟩
    | cons m msT =>
      rw [CutHit_cons_eq]
      left
      exact ⟨[], List.mem_singleton.mpr rfl, by simp,
        fun c _ hc => absurd hc (List.not_mem_nil _)⟩

theorem SearchInv_drain (t : Pos → Bool) (g : Pos) (sb : Block) (ex : List Block)
    (inv : SearchInv t g sb [] ex) :
    ∀ ms, legalFrom t sb ms = true → done g (replay sb ms) = false := by
  intro ms hl
  rcases inv.cut ms hl with hex | hcut
  · exact inv.exNotDone _ hex
  · obtain ⟨bh, hm, _⟩ := CutHit_mem [] ex ms sb 0 hcut
    exact absurd hm (List.not_mem_nil _)

theorem solveLoop_found (t : Pos → Bool) (g : Pos) (sb : Block) :
    ∀ fuel q ex, SearchInv t g sb q ex →
      ∀ h, (solveLoop t g fuel q ex).1 = some h →
        (legalFrom t sb h = true ∧ done g (replay sb h) = true ∧
          ∀ ms, legalFrom t sb ms = true → done g (replay sb ms) = true →
            h.length ≤ ms.length) ∨
        (h = [] ∧ ∀ ms, legalFrom t sb ms = true → done g (replay sb ms) = false) := by
  intro fuel
  induction fuel with
  | zero =>
    intro q ex inv h hres
    cases q with
    | nil =>
      rw [solveLoop_nil] at hres
      simp only [Option.some.injEq] at hres
      exact Or.inr ⟨hres.symm, SearchInv_drain t g sb ex inv⟩
    | cons bh rest =>
      rw [solveLoop_zero] at hres
      simp at hres
  | succ n ih =>
    intro q ex inv h hres
    cases q with
    | nil =>
      rw [solveLoop_nil] at hres
      simp only [Option.some.injEq] at hres
      exact Or.inr ⟨hres.symm, SearchInv_drain t g sb ex inv⟩
    | cons bh rest =>
      obtain ⟨b0, hist⟩ := bh
      rw [solveLoop_succ] at hres
      by_cases hd : done g b0 = true
      · rw [if_pos hd] at hres
        simp only [Option.some.injEq] at hres
        subst hres
        have hsound0 := inv.sound (b0, hist) (List.mem_cons_self _ _)
        have hmin := sorted_head_min b0 hist rest inv.sorted
        left
        refine ⟨hsound0.1, by rw [hsound0.2]; exact hd, ?_⟩
        intro ms hl hdone
        rcases inv.cut ms hl with hex | hcut
        · have hf := inv.exNotDone _ hex
          rw [hf] at hdone
          exact absurd hdone Bool.false_ne_true
        · obtain ⟨bh2, hm2, hl2⟩ := CutHit_mem _ ex ms sb 0 hcut
          have hm3 := hmin bh2 hm2
          omega
      · rw [if_neg hd] at hres
        rw [Bool.not_eq_true] at hd
        exact ih _ _ (SearchInv_step t g sb b0 hist rest ex inv hd) h hres

theorem nodesInS_step (t : Pos → Bool) (g : Pos) (sb b0 : Block) (hist : List Move)
    (rest : List (Block × List Move)) (ex : List Block) (S : Finset Block)
    (inv : SearchInv t g sb ((b0, hist) :: rest) ex)
    (hins : nodesInS S sb ((b0, hist) :: rest))
    (hclosed : ∀ b ∈ S, ∀ bm ∈ Block.neighbors b,
      is_legal t bm.1.b1 bm.1.b2 = true → bm.1 ∈ S) :
    nodesInS S sb (rest ++ processNeighbors t (b0 :: ex) hist b0.neighbors) := by
  have hsound0 := inv.sound (b0, hist) (List.mem_cons_self _ _)
  intro bh hm c hc
  rcases List.mem_append.mp hm with hr | hn
  · exact hins bh (List.mem_cons_of_mem _ hr) c hc
  · obtain ⟨m, hmn, hnx, hlegn, he2⟩ :=
      mem_processNeighbors t (b0 :: ex) hist b0.neighbors bh hn
    have hb1 : bh.1 = stepB b0 m := neighbors_mem_eq b0 bh.1 m hmn
    have hb0S : b0 ∈ S := by
      have hmem := hins (b0, hist) (List.mem_cons_self _ _) (replay sb hist)
        (replay_mem_nodes sb hist)
      rwa [hsound0.2] at hmem
    have hstepS : stepB b0 m ∈ S := by
      refine hclosed b0 hb0S (stepB b0 m, m) (stepB_mem_neighbors b0 m) ?_
      rwa [hb1] at hlegn
    rw [he2, nodes_append_one sb b0 hist m hsound0.2] at hc
    rcases List.mem_append.mp hc with hc1 | hc2
    · exact hins (b0, hist) (List.mem_cons_self _ _) c hc1
    · rw [List.mem_singleton] at hc2
      rw [hc2]
      exact hstepS

theorem measureM_append (N : Nat) (l1 l2 : List (Block × List Move)) :
    measureM N (l1 ++ l2) = measureM N l1 + measureM N l2 := by
  simp [measureM, List.map_append]

theorem measureM_cons (N : Nat) (bh : Block × List Move) (l : List (Block × List Move)) :
    measureM N (bh :: l) = 5 ^ (N - (bh.2.length + 1)) + measureM N l := by
  simp [measureM]

theorem sum_map_le_of_all_le (c : Nat) :
    ∀ l : List (Block × List Move), ∀ f : Block × List Move → Nat,
      (∀ x ∈ l, f x ≤ c) → (l.map f).sum ≤ c * l.length := by
  intro l
  induction l with
  | nil => intro f _; simp
  | cons a l ih =>
    intro f hb
    simp only [List.map_cons, List.sum_cons, List.length_cons]
    have h1 := hb a (List.mem_cons_self _ _)
    have h2 := ih f fun x hx => hb x (List.mem_cons_of_mem _ hx)
    have : c * (l.length + 1) = c * l.length + c := by ring
    omega

theorem measure_decreases (t : Pos → Bool) (g : Pos) (sb b0 : Block) (hist : List Move)
    (rest : List (Block × List Move)) (ex : List Block) (S : Finset Block)
    (inv : SearchInv t g sb ((b0, hist) :: rest) ex)
    (hins : nodesInS S sb ((b0, hist) :: rest))
    (hclosed : ∀ b ∈ S, ∀ bm ∈ Block.neighbors b,
      is_legal t bm.1.b1 bm.1.b2 = true → bm.1 ∈ S)
    (hnd : done g b0 = false) :
    measureM S.card (rest ++ processNeighbors t (b0 :: ex) hist b0.neighbors) <
      measureM S.card ((b0, hist) :: rest) := by
  have hstep := SearchInv_step t g sb b0 hist rest ex inv hnd
  have hinsS := nodesInS_step t g sb b0 hist rest ex S inv hins hclosed
  have hlenB : ∀ bh ∈ rest ++ processNeighbors t (b0 :: ex) hist b0.neighbors,
      bh.2.length + 1 ≤ S.card := by
    intro bh hm
    have hnd2 := hstep.nodupNodes bh hm
    have hins2 := hinsS bh hm
    have h1 : (nodes sb bh.2).toFinset.card = (nodes sb bh.2).length :=
      List.toFinset_card_of_nodup hnd2
    have h2 : (nodes sb bh.2).toFinset ⊆ S := fun c hc => hins2 c (List.mem_toFinset.mp hc)
    have h3 := Finset.card_le_card h2
    rw [h1] at h3
    have h4 : (nodes sb bh.2).length = bh.2.length + 1 := by
      simp [nodes, tailNodes_length]
    omega
  have hnewsLen : ∀ bh ∈ processNeighbors t (b0 :: ex) hist b0.neighbors,
      bh.2.length = hist.length + 1 := by
    intro bh hb
    obtain ⟨m, _, _, _, he2⟩ := mem_processNeighbors t (b0 :: ex) hist b0.neighbors bh hb
    rw [he2]
    simp
  rw [measureM_append, measureM_cons]
  have hred : ((b0, hist) : Block × List Move).2.length = hist.length := rfl
  rw [hred]
  suffices h : measureM S.card (processNeighbors t (b0 :: ex) hist b0.neighbors) <
      5 ^ (S.card - (hist.length + 1)) by omega
  rcases Nat.lt_or_ge (hist.length + 1) S.card with hlt | hge
  · have hterm : ∀ bh ∈ processNeighbors t (b0 :: ex) hist b0.neighbors,
        (fun bh => 5 ^ (S.card - (bh.2.length + 1))) bh ≤
          5 ^ (S.card - (hist.length + 2)) := by
      intro bh hb
      have hl2 := hnewsLen bh hb
      simp only
      rw [hl2]
    have hsum := sum_map_le_of_all_le (5 ^ (S.card - (hist.length + 2)))
      (processNeighbors t (b0 :: ex) hist b0.neighbors) _ hterm
    have hcount : (processNeighbors t (b0 :: ex) hist b0.neighbors).length ≤ 4 := by
      have := processNeighbors_length_le t (b0 :: ex) hist b0.neighbors
      simpa [Block.neighbors] using this
    have hlast : 5 ^ (S.card - (hist.length + 2)) * 4 < 5 ^ (S.card - (hist.length + 1)) := by
      have hexp : S.card - (hist.length + 1) = (S.card - (hist.length + 2)) + 1 := by omega
      rw [hexp, pow_succ]
      have hpos : 0 < 5 ^ (S.card - (hist.length + 2)) :=
        pow_pos (by norm_num) _
      omega
    have hmul : 5 ^ (S.card - (hist.length + 2)) *
        (processNeighbors t (b0 :: ex) hist b0.neighbors).length ≤
        5 ^ (S.card - (hist.length + 2)) * 4 :=
      Nat.mul_le_mul_left _ hcount
    have hmu : measureM S.card (processNeighbors t (b0 :: ex) hist b0.neighbors) =
        ((processNeighbors t (b0 :: ex) hist b0.neighbors).map
          fun bh => 5 ^ (S.card - (bh.2.length + 1))).sum := rfl
    rw [hmu]
    calc ((processNeighbors t (b0 :: ex) hist b0.neighbors).map
          fun bh => 5 ^ (S.card - (bh.2.length + 1))).sum
        ≤ 5 ^ (S.card - (hist.length + 2)) *
            (processNeighbors t (b0 :: ex) hist b0.neighbors).length := hsum
      _ ≤ 5 ^ (S.card - (hist.length + 2)) * 4 := hmul
      _ < 5 ^ (S.card - (hist.length + 1)) := hlast
  · have hempty : processNeighbors t (b0 :: ex) hist b0.neighbors = [] := by
      cases hq : processNeighbors t (b0 :: ex) hist b0.neighbors with
      | nil => rfl
      | cons nh nt =>
        exfalso
        have hm : nh ∈ processNeighbors t (b0 :: ex) hist b0.neighbors := by
          rw [hq]
          exact List.mem_cons_self _ _
        have h1 := hlenB nh (List.mem_append_right rest hm)
        have h2 := hnewsLen nh hm
        omega
    rw [hempty]
    have : measureM S.card ([] : List (Block × List Move)) = 0 := by simp [measureM]
    rw [this]
    exact pow_pos (by norm_num) _

theorem solveLoop_terminates (t : Pos → Bool) (g : Pos) (sb : Block) (S : Finset Block)
    (hclosed : ∀ b ∈ S, ∀ bm ∈ Block.neighbors b,
      is_legal t bm.1.b1 bm.1.b2 = true → bm.1 ∈ S) :
    ∀ fuel q ex, SearchInv t g sb q ex → nodesInS S sb q →
      measureM S.card q < fuel → (solveLoop t g fuel q ex).1.isSome = true := by
  intro fuel
  induction fuel with
  | zero =>
    intro q ex _ _ hm
    exact absurd hm (Nat.not_lt_zero _)
  | succ n ih =>
    intro q ex inv hins hm
    cases q with
    | nil =>
      rw [solveLoop_nil]
      rfl
    | cons bh rest =>
      obtain ⟨b0, hist⟩ := bh
      rw [solveLoop_succ]
      by_cases hd : done g b0 = true
      · rw [if_pos hd]
        rfl
      · rw [if_neg hd]
        rw [Bool.not_eq_true] at hd
        refine ih _ _ (SearchInv_step t g sb b0 hist rest ex inv hd)
          (nodesInS_step t g sb b0 hist rest ex S inv hins hclosed) ?_
        have hdec := measure_decreases t g sb b0 hist rest ex S inv hins hclosed hd
        omega

theorem nodesInS_start (S : Finset Block) (sb : Block) (hS0 : sb ∈ S) :
    nodesInS S sb [(sb, [])] := by
  intro bh hm c hc
  rw [List.mem_singleton] at hm
  subst hm
  have hn : nodes sb ([] : List Move) = [sb] := rfl
  rw [hn] at hc
  rw [List.mem_singleton] at hc
  rw [hc]
  exact hS0

/-! ## Main claims about the search -/

/-- C3: whenever `solve` returns a move list, replaying it from the
standing start yields, after each move, a configuration both of whose
cells satisfy the terrain predicate. -/
theorem solve_moves_legal (start g : Pos) (t : Pos → Bool) (fuel : Nat) (h : List Move)
    (hs : solve start g t fuel = some h) :
    legalFrom t (startBlock start) h = true := by
  have hres : (solveLoop t g fuel [(startBlock start, [])] []).1 = some h := hs
  rcases solveLoop_found t g (startBlock start) fuel _ _
      (SearchInv_start t g (startBlock start)) h hres with hf | hdr
  · exact hf.1
  · rw [hdr.1]
    rfl

theorem solve_moves_legal_witness :
    legalFrom terrainStrip (startBlock ⟨0, 0⟩) [Move.RIGHT, Move.RIGHT] = true :=
  solve_moves_legal ⟨0, 0⟩ ⟨0, 3⟩ terrainStrip 10 [Move.RIGHT, Move.RIGHT] (by decide)

/-- C6: when the legal configurations reachable from the standing start
all lie in a finite set `S` closed under legal tilts, the search loop
terminates: some finite fuel (number of dequeues) suffices for `solve`
to return. -/
theorem solve_terminates (start g : Pos) (t : Pos → Bool) (S : Finset Block)
    (hS0 : startBlock start ∈ S)
    (hclosed : ∀ b ∈ S, ∀ bm ∈ Block.neighbors b,
      is_legal t bm.1.b1 bm.1.b2 = true → bm.1 ∈ S) :
    ∃ fuel, (solve start g t fuel).isSome = true := by
  refine ⟨measureM S.card [(startBlock start, [])] + 1, ?_⟩
  exact solveLoop_terminates t g (startBlock start) S hclosed _ _ _
    (SearchInv_start t g (startBlock start)) (nodesInS_start S _ hS0)
    (Nat.lt_succ_self _)

theorem solve_terminates_witness :
    ∃ fuel, (solve ⟨0, 0⟩ ⟨0, 3⟩ terrainStrip fuel).isSome = true :=
  solve_terminates ⟨0, 0⟩ ⟨0, 3⟩ terrainStrip stripBlocks (by decide) (by decide)

/-- C8: under the finiteness hypothesis, if no legal move sequence leads
from the standing start to a standing goal configuration, `solve`
returns the empty sequence (the queue drains and the loop falls
through), and every move list it ever returns is empty. -/
theorem solve_unreachable (start g : Pos) (t : Pos → Bool) (S : Finset Block)
    (hS0 : startBlock start ∈ S)
    (hclosed : ∀ b ∈ S, ∀ bm ∈ Block.neighbors b,
      is_legal t bm.1.b1 bm.1.b2 = true → bm.1 ∈ S)
    (hun : ∀ ms, ¬ goalPath start g t ms) :
    (∃ fuel, solve start g t fuel = some []) ∧
    ∀ fuel h, solve start g t fuel = some h → h = [] := by
  have hall : ∀ fuel h, solve start g t fuel = some h → h = [] := by
    intro fuel h hh
    have hres : (solveLoop t g fuel [(startBlock start, [])] []).1 = some h := hh
    rcases solveLoop_found t g (startBlock start) _ _ _
        (SearchInv_start t g (startBlock start)) h hres with hf | hdr
    · exact absurd ⟨hf.1, hf.2.1⟩ (hun h)
    · exact hdr.1
  have hsome : (solve start g t (measureM S.card [(startBlock start, [])] + 1)).isSome =
      true :=
    solveLoop_terminates t g (startBlock start) S hclosed _ _ _
      (SearchInv_start t g (startBlock start)) (nodesInS_start S _ hS0)
      (Nat.lt_succ_self _)
  obtain ⟨h, hh⟩ := Option.isSome_iff_exists.mp hsome
  refine ⟨⟨measureM S.card [(startBlock start, [])] + 1, ?_⟩, hall⟩
  rw [hh, hall _ h hh]

theorem solve_unreachable_witness :
    (∃ fuel, solve ⟨0, 0⟩ ⟨5, 5⟩ terrainStrip fuel = some []) ∧
    ∀ fuel h, solve ⟨0, 0⟩ ⟨5, 5⟩ terrainStrip fuel = some h → h = [] := by
  refine solve_unreachable ⟨0, 0⟩ ⟨5, 5⟩ terrainStrip stripBlocks (by decide) (by decide) ?_
  rintro ms ⟨hl, hd⟩
  cases ms with
  | nil => exact absurd hd (by decide)
  | cons m msT =>
    have hlast := legalFrom_last terrainStrip (m :: msT) (startBlock ⟨0, 0⟩) hl
      (List.cons_ne_nil _ _)
    rw [done, Bool.and_eq_true] at hd
    have hb1 : (replay (startBlock ⟨0, 0⟩) (m :: msT)).b1 = ⟨5, 5⟩ :=
      of_decide_eq_true hd.2
    rw [hb1] at hlast
    have hts : terrainStrip ⟨5, 5⟩ = false := rfl
    rw [is_legal, hts] at hlast
    simp at hlast

/-- C1: for every solvable instance whose reachable legal configurations
lie in a finite set closed under legal tilts, `solve` returns for some
fuel, and every move list it returns is a legal path to a standing goal
whose length equals the graph distance: the least length of any legal
move sequence from the standing start to a standing goal
configuration. -/
theorem solve_shortest (start g : Pos) (t : Pos → Bool) (S : Finset Block)
    (hS0 : startBlock start ∈ S)
    (hclosed : ∀ b ∈ S, ∀ bm ∈ Block.neighbors b,
      is_legal t bm.1.b1 bm.1.b2 = true → bm.1 ∈ S)
    (hsolv : ∃ ms, goalPath start g t ms) :
    (∃ fuel h, solve start g t fuel = some h) ∧
    ∀ fuel h, solve start g t fuel = some h → goalPath start g t h ∧
      h.length = sInf {n | ∃ ms, goalPath start g t ms ∧ ms.length = n} := by
  constructor
  · have hsome : (solve start g t
        (measureM S.card [(startBlock start, [])] + 1)).isSome = true :=
      solveLoop_terminates t g (startBlock start) S hclosed _ _ _
        (SearchInv_start t g (startBlock start)) (nodesInS_start S _ hS0)
        (Nat.lt_succ_self _)
    obtain ⟨h, hh⟩ := Option.isSome_iff_exists.mp hsome
    exact ⟨_, h, hh⟩
  · intro fuel h hh
    have hres : (solveLoop t g fuel [(startBlock start, [])] []).1 = some h := hh
    rcases solveLoop_found t g (startBlock start) _ _ _
        (SearchInv_start t g (startBlock start)) h hres with hf | hdr
    · refine ⟨⟨hf.1, hf.2.1⟩, ?_⟩
      have hmemT : h.length ∈ {n | ∃ ms, goalPath start g t ms ∧ ms.length = n} :=
        ⟨h, ⟨hf.1, hf.2.1⟩, rfl⟩
      have hinf_mem := Nat.sInf_mem (Set.nonempty_of_mem hmemT)
      obtain ⟨ms0, hgp0, hlen0⟩ := hinf_mem
      refine le_antisymm ?_ (Nat.sInf_le hmemT)
      rw [← hlen0]
      exact hf.2.2 ms0 hgp0.1 hgp0.2
    · obtain ⟨ms, hms⟩ := hsolv
      have hfalse := hdr.2 ms hms.1
      rw [hms.2] at hfalse
      exact absurd hfalse (by simp)

theorem solve_shortest_witness :
    (∃ fuel h, solve ⟨0, 0⟩ ⟨0, 3⟩ terrainStrip fuel = some h) ∧
    ∀ fuel h, solve ⟨0, 0⟩ ⟨0, 3⟩ terrainStrip fuel = some h →
      goalPath ⟨0, 0⟩ ⟨0, 3⟩ terrainStrip h ∧
      h.length = sInf {n | ∃ ms, goalPath ⟨0, 0⟩ ⟨0, 3⟩ terrainStrip ms ∧ ms.length = n} :=
  solve_shortest ⟨0, 0⟩ ⟨0, 3⟩ terrainStrip stripBlocks (by decide) (by decide)
    ⟨[Move.RIGHT, Move.RIGHT], ⟨by decide, by decide⟩⟩
